import Mathlib

/-!
Verification of the LocalDrop conversion core (a browser-side HEIC
converter).  The definitions below are a shallow embedding of the
TypeScript source:

* `src/lib/constants.ts`  — configuration constants and error messages;
* `src/lib/converters.ts` — `validateFile`, `isValidHeicFile`, `convertFile`;
* the `Converter` component — queue state, the queue-processing effect
  (the scheduling pass), completion handlers, `removeFile`, `clearAll`,
  `handleDownload`, and the object-URL bookkeeping.

JavaScript strings are modelled as Lean `String`, with the relevant
string methods (`toLowerCase`, `endsWith`, anchored regex replacement)
re-implemented over the character list so that everything is executable
and kernel-computable.  Binary payloads are lists of byte values.
Asynchronous boundaries (the file-prefix read and the external decode
routine) are modelled by passing the outcome of the asynchronous step
as an explicit argument.
-/

namespace LocalDrop

/-- Per-item lifecycle status, from `src/lib/types.ts` (`Status`). -/
inductive Status where
  | idle
  | processing
  | success
  | error
deriving DecidableEq

/-- Output format, from `src/lib/types.ts` (`OutputFormat`):
`jpeg` stands for the string literal member `image/jpeg` and `png`
for `image/png`. -/
inductive OutputFormat where
  | jpeg
  | png
deriving DecidableEq

/-- A user-submitted `File`: its declared name, its byte size, its
content bytes, and whether reading it faults (a rejected
`slice`/`arrayBuffer` call, e.g. a truncated or unreadable file). -/
structure SrcFile where
  name : String
  size : Nat
  bytes : List Nat
  readFault : Bool
deriving DecidableEq

/-- `FileItem` from `src/lib/types.ts`.  The `id` produced by
`crypto.randomUUID()` is modelled as a natural number. -/
structure FileItem where
  id : Nat
  file : SrcFile
  status : Status
  errorMessage : String
  downloadUrl : String
  filename : String
deriving DecidableEq

/-- `ConverterState` from `src/lib/types.ts`: the file list, the
optional global error, and the selected output format. -/
structure ConverterState where
  files : List FileItem
  globalError : Option String
  selectedFormat : OutputFormat
deriving DecidableEq

/-- `FILE_CONSTRAINTS.maxSize` from `src/lib/constants.ts`: 50 MiB. -/
def FILE_CONSTRAINTS_maxSize : Nat := 50 * 1024 * 1024

/-- `FILE_CONSTRAINTS.allowedExtensions` from `src/lib/constants.ts`. -/
def FILE_CONSTRAINTS_allowedExtensions : List String := [".heic", ".HEIC"]

/-- `ERROR_MESSAGES.FILE_TOO_LARGE` from `src/lib/constants.ts`. -/
def ERROR_MESSAGES_FILE_TOO_LARGE : String :=
  "File too large for browser processing. Please select a file under 50MB."

/-- `ERROR_MESSAGES.INVALID_FORMAT` from `src/lib/constants.ts`. -/
def ERROR_MESSAGES_INVALID_FORMAT : String :=
  "Please select a HEIC file. Only .heic and .HEIC files are supported."

/-- `ERROR_MESSAGES.CONVERSION_FAILED` from `src/lib/constants.ts`. -/
def ERROR_MESSAGES_CONVERSION_FAILED : String :=
  "This file appears to be damaged or not a standard HEIC. Try taking a new photo or exporting the image again from your device."

/-- `ERROR_MESSAGES.BROWSER_UNSUPPORTED` from `src/lib/constants.ts`. -/
def ERROR_MESSAGES_BROWSER_UNSUPPORTED : String :=
  "Your browser is too old for privacy-mode. Please update to the latest version of Chrome, Firefox, Safari, or Edge."

/-- Modelled from the spec: `MAX_CONCURRENT_CONVERSIONS` is imported by
the `Converter` component from `src/lib/constants.ts`, but its defining
line is not among the available sources.  The spec fixes the
concurrency cap at 3 (§4.4 and Scenario D). -/
def MAX_CONCURRENT_CONVERSIONS : Nat := 3

/-- JavaScript `String.prototype.toLowerCase`, character by character. -/
def jsToLower (s : String) : String := ⟨s.data.map Char.toLower⟩

/-- JavaScript `String.prototype.endsWith`. -/
def jsEndsWith (s suffix : String) : Bool := suffix.data.isSuffixOf s.data

/-- The extension test inside `validateFile` (`src/lib/converters.ts`
lines 32-35): the lower-cased file name must end with one of the
allowed extensions, each itself lower-cased. -/
def hasValidExtension (name : String) : Bool :=
  FILE_CONSTRAINTS_allowedExtensions.any fun ext =>
    jsEndsWith (jsToLower name) (jsToLower ext)

/-- `FileValidationResult` from `src/lib/types.ts`. -/
structure FileValidationResult where
  isValid : Bool
  errorMessage : String
deriving DecidableEq

/-- `validateFile` from `src/lib/converters.ts` (lines 30-57):
extension check first, size check second. -/
def validateFile (file : SrcFile) : FileValidationResult :=
  if hasValidExtension file.name = false then
    ⟨false, ERROR_MESSAGES_INVALID_FORMAT⟩
  else if FILE_CONSTRAINTS_maxSize < file.size then
    ⟨false, ERROR_MESSAGES_FILE_TOO_LARGE⟩
  else
    ⟨true, ""⟩

/-- Indexing into a `Uint8Array` built from the sliced buffer: an index
past the end yields `undefined`, which `String.fromCharCode` converts
to the NUL character (char code 0); reading in range yields the byte. -/
def byteAt : List Nat → Nat → Nat
  | [], _ => 0
  | b :: _, 0 => b
  | _ :: rest, i + 1 => byteAt rest i

/-- The awaited `file.slice(0, 12).arrayBuffer()` read inside
`isValidHeicFile`: at most the first 12 bytes, or a rejection. -/
def readFirst12 (f : SrcFile) : Option (List Nat) :=
  if f.readFault then none else some (f.bytes.take 12)

/-- Char codes of the type-box tag `ftyp` compared against bytes 4-7. -/
def ftypCode : List Nat := "ftyp".data.map Char.toNat

/-- `validBrands` from `src/lib/converters.ts` line 151, as char-code
sequences compared against bytes 8-11. -/
def validBrands : List (List Nat) :=
  ["heic", "heix", "hevc", "hevx", "heim", "heis", "hevm", "hevs", "mif1", "msf1"].map
    fun s => s.data.map Char.toNat

/-- `isValidHeicFile` from `src/lib/converters.ts` (lines 133-163), the
magic-byte sniffer.  The `catch` branch (a faulting read) returns
`false`.  String comparisons of `String.fromCharCode` values are
modelled as comparisons of the corresponding char-code lists. -/
def isValidHeicFile (f : SrcFile) : Bool :=
  match readFirst12 f with
  | none => false
  | some bytes =>
    if [byteAt bytes 4, byteAt bytes 5, byteAt bytes 6, byteAt bytes 7] ≠ ftypCode then
      false
    else
      decide ([byteAt bytes 8, byteAt bytes 9, byteAt bytes 10, byteAt bytes 11] ∈ validBrands)

/-- A JavaScript value as far as the result handling in `convertFile`
can distinguish it: a `Blob` (with its bytes) or anything that is
missing or not a `Blob` (`undefined`, `null`, other objects). -/
inductive JsValue where
  | blob (bytes : List Nat)
  | nonBlob
deriving DecidableEq

/-- Outcome of the awaited external decode routine `heic2any`: a single
resolved value, a resolved array of values (multi-frame input), or a
thrown error / rejected promise.  A failure to load the library
dynamically also surfaces as `throw` (it is raised inside the same
`try` block). -/
inductive DecodeOutcome where
  | ret (v : JsValue)
  | retList (vs : List JsValue)
  | throw
deriving DecidableEq

/-- Whether the decode outcome is one of the failure shapes that
`convertFile` maps to its generic error: a throw/rejection, a non-Blob
resolution, or an array whose first element is missing or not a Blob. -/
def decodeFailed : DecodeOutcome → Bool
  | .throw => true
  | .ret (.blob _) => false
  | .ret .nonBlob => true
  | .retList vs =>
    match vs.head? with
    | some (.blob _) => false
    | _ => true

/-- `ConversionResult` from `src/lib/converters.ts` (lines 118-122). -/
structure ConversionResult where
  success : Bool
  blob : Option (List Nat)
  error : Option String
deriving DecidableEq

/-- `convertFile` from `src/lib/converters.ts` (lines 186-331).  The
structural sniff runs first; only if it passes is the external routine
consulted, so the function takes the routine's outcome as an argument
and ignores it on the early-error path.  `Array.isArray(result) ?
result[0] : result` is the `retList`/`ret` split, with `result[0]` of
an empty array being `undefined` (not a Blob).  Every `catch` and every
malformed result yields the same `ERROR_MESSAGES_CONVERSION_FAILED`. -/
def convertFile (file : SrcFile) (outputFormat : OutputFormat)
    (decode : DecodeOutcome) : ConversionResult :=
  if isValidHeicFile file = false then
    ⟨false, none, some ERROR_MESSAGES_CONVERSION_FAILED⟩
  else
    match decode with
    | .throw => ⟨false, none, some ERROR_MESSAGES_CONVERSION_FAILED⟩
    | .ret (.blob b) => ⟨true, some b, none⟩
    | .ret .nonBlob => ⟨false, none, some ERROR_MESSAGES_CONVERSION_FAILED⟩
    | .retList vs =>
      match vs.head? with
      | some (.blob b) => ⟨true, some b, none⟩
      | _ => ⟨false, none, some ERROR_MESSAGES_CONVERSION_FAILED⟩

/-- The output extension chosen in `processFile` (`Converter` line 95):
`format === 'image/jpeg' ? '.jpg' : '.png'`. -/
def outputExtension (format : OutputFormat) : String :=
  if format = OutputFormat.jpeg then ".jpg" else ".png"

/-- JavaScript `s.slice` shape used below: drop the last `n` characters. -/
def jsDropRight (s : String) (n : Nat) : String := ⟨s.data.take (s.data.length - n)⟩

/-- The output-name computation in `processFile` (`Converter` line 96):
`originalName.replace(/\.(heic|HEIC)$/i, extension)`.  The regex matches
a literal dot followed by `heic` in any letter case, anchored at the end
of the name; when it matches, those five characters are replaced by the
extension, otherwise the name is returned unchanged. -/
def outputFilename (originalName : String) (format : OutputFormat) : String :=
  if jsEndsWith (jsToLower originalName) ".heic" then
    jsDropRight originalName 5 ++ outputExtension format
  else originalName

/-- The per-file item built in `handleFileSelect` (`Converter` lines
130-140): status `idle` on passing validation, `error` (with the
validation message) otherwise; no download URL or output name yet. -/
def mkFileItem (id : Nat) (file : SrcFile) : FileItem :=
  let validation := validateFile file
  { id := id
    file := file
    status := if validation.isValid then Status.idle else Status.error
    errorMessage := if validation.isValid then "" else validation.errorMessage
    downloadUrl := ""
    filename := "" }

/-- `handleFileSelect` (`Converter` lines 127-147): validate each
selected file and append the new items to the list.  The fresh ids
handed out by `crypto.randomUUID()` are passed alongside the files. -/
def handleFileSelect (s : ConverterState) (selected : List (Nat × SrcFile)) : ConverterState :=
  { s with files := s.files ++ selected.map fun p => mkFileItem p.1 p.2 }

/-- The count of items currently `processing` (`Converter` line 157). -/
def processingCount (files : List FileItem) : Nat :=
  (files.filter fun f => decide (f.status = Status.processing)).length

/-- The `idle` items, in list order (`Converter` lines 163-164). -/
def idleFiles (files : List FileItem) : List FileItem :=
  files.filter fun f => decide (f.status = Status.idle)

/-- The function mapped over the list in the scheduling pass
(`Converter` lines 173-177): an item whose id occurs among the
picked `nextFiles` is marked `processing`, all others are unchanged. -/
def markItem (nextFiles : List FileItem) (f : FileItem) : FileItem :=
  if nextFiles.any (fun nf => decide (nf.id = f.id)) then
    { f with status := Status.processing }
  else f

/-- The state update of the scheduling pass (`Converter` lines 171-178). -/
def promote (files nextFiles : List FileItem) : List FileItem :=
  files.map (markItem nextFiles)

/-- The queue-processing effect (`Converter` lines 155-186) as a pure
scheduling pass: if the `processing` count is below the cap, take the
first `idle` items up to the available slots and mark them
`processing`; otherwise (or when nothing is `idle`) leave the state
alone.  Note that the effect reads only `state.files`; it does not
consult `state.globalError`. -/
def schedulePass (s : ConverterState) : ConverterState :=
  if processingCount s.files < MAX_CONCURRENT_CONVERSIONS then
    let nextFiles :=
      (idleFiles s.files).take (MAX_CONCURRENT_CONVERSIONS - processingCount s.files)
    if 0 < nextFiles.length then
      { s with files := promote s.files nextFiles }
    else s
  else s

/-- The failure update in `processFile` (`Converter` lines 80-88):
the item with the dispatched id becomes `error` with the reported
message (`result.error || 'Conversion failed'`). -/
def setFileError (files : List FileItem) (id : Nat) (msg : String) : List FileItem :=
  files.map fun f =>
    if decide (f.id = id) then { f with status := Status.error, errorMessage := msg } else f

/-- The success update in `processFile` (`Converter` lines 98-110):
the item with the dispatched id becomes `success` and receives the
blob URL and the derived output name. -/
def setFileSuccess (files : List FileItem) (id : Nat) (blobUrl filename : String) :
    List FileItem :=
  files.map fun f =>
    if decide (f.id = id) then
      { f with status := Status.success, downloadUrl := blobUrl, filename := filename }
    else f

/-- `removeFile` (`Converter` lines 268-280), file-list part: drop every
item with the given id. -/
def removeFileOp (s : ConverterState) (id : Nat) : ConverterState :=
  { s with files := s.files.filter fun f => decide (f.id ≠ id) }

/-- `clearAll` (`Converter` lines 285-294), file-list part. -/
def clearAllOp (s : ConverterState) : ConverterState :=
  { s with files := [] }

/-- One mutation of the queue state, as observed by the claims about the
scheduler: insertion of validated files (with fresh, pairwise distinct
ids, as produced by `crypto.randomUUID()`), a scheduling pass, a
conversion completion for some dispatched id (present or not), removal,
clear-all, a format switch, and the browser-compatibility effect. -/
inductive QStep : ConverterState → ConverterState → Prop
  | select (s : ConverterState) (sel : List (Nat × SrcFile))
      (hfresh : (s.files.map (fun f => f.id) ++ sel.map (fun p => p.1)).Nodup) :
      QStep s (handleFileSelect s sel)
  | schedule (s : ConverterState) : QStep s (schedulePass s)
  | completeSuccess (s : ConverterState) (id : Nat) (blobUrl filename : String) :
      QStep s { s with files := setFileSuccess s.files id blobUrl filename }
  | completeError (s : ConverterState) (id : Nat) (msg : String) :
      QStep s { s with files := setFileError s.files id msg }
  | remove (s : ConverterState) (id : Nat) : QStep s (removeFileOp s id)
  | clear (s : ConverterState) : QStep s (clearAllOp s)
  | setFormat (s : ConverterState) (fmt : OutputFormat) :
      QStep s { s with selectedFormat := fmt }
  | setGlobalError (s : ConverterState) (msg : String) :
      QStep s { s with globalError := some msg }

/-- Queue states reachable from the initial component state (empty list,
no global error) through the operations above. -/
inductive ReachableQ : ConverterState → Prop
  | init (fmt : OutputFormat) : ReachableQ ⟨[], none, fmt⟩
  | step {s s' : ConverterState} : ReachableQ s → QStep s s' → ReachableQ s'

/-- The blob URLs currently held by items in the list (the truthy
`downloadUrl` fields, in list order). -/
def heldUrls (files : List FileItem) : List String :=
  files.filterMap fun f => if f.downloadUrl = "" then none else some f.downloadUrl

/-- The component state together with the object-URL bookkeeping: the
`objectUrls` ref (a `Set` of tracked URLs), plus the histories of every
`URL.createObjectURL` and every `URL.revokeObjectURL` call, recording
handle creation and release. -/
structure World where
  state : ConverterState
  objectUrls : List String
  createdUrls : List String
  revokedUrls : List String

/-- The initial `useState` value of the component (`Converter` lines
17-20). -/
def initialState : ConverterState := ⟨[], none, OutputFormat.jpeg⟩

/-- The initial world: initial state, no URLs created or tracked. -/
def initialWorld : World := ⟨initialState, [], [], []⟩

/-- `handleFileSelect` lifted to the world (touches no URLs). -/
def insertW (w : World) (selected : List (Nat × SrcFile)) : World :=
  { w with state := handleFileSelect w.state selected }

/-- The scheduling pass lifted to the world (touches no URLs). -/
def scheduleW (w : World) : World :=
  { w with state := schedulePass w.state }

/-- `URL.createObjectURL(result.blob)` followed by
`objectUrls.current.add(blobUrl)` (`Converter` lines 91-92): the fresh
URL is recorded as created and added to the tracked set. -/
def createObjectURL (w : World) (url : String) : World :=
  { w with
    objectUrls := if url ∈ w.objectUrls then w.objectUrls else w.objectUrls ++ [url]
    createdUrls := w.createdUrls ++ [url] }

/-- Successful completion of `processFile` for a dispatched item
(`Converter` lines 91-110): create and track the blob URL, then apply
the success update with the derived output name. -/
def completeSuccessW (w : World) (item : FileItem) (format : OutputFormat)
    (blobUrl : String) : World :=
  let w1 := createObjectURL w blobUrl
  { w1 with
    state := { w1.state with
      files := setFileSuccess w1.state.files item.id blobUrl
        (outputFilename item.file.name format) } }

/-- Failed completion of `processFile` for a dispatched item
(`Converter` lines 80-88): no URL is created. -/
def completeErrorW (w : World) (item : FileItem) (msg : String) : World :=
  { w with state := { w.state with files := setFileError w.state.files item.id msg } }

/-- `removeFile` (`Converter` lines 268-280): find the item; if it holds
a download URL, revoke it and delete it from the tracked set; then drop
the item from the list. -/
def removeFileW (w : World) (id : Nat) : World :=
  match w.state.files.find? (fun f => decide (f.id = id)) with
  | some fileToRemove =>
    if fileToRemove.downloadUrl = "" then
      { w with state := removeFileOp w.state id }
    else
      { w with
        state := removeFileOp w.state id
        objectUrls := w.objectUrls.erase fileToRemove.downloadUrl
        revokedUrls := w.revokedUrls ++ [fileToRemove.downloadUrl] }
  | none => { w with state := removeFileOp w.state id }

/-- `clearAll` (`Converter` lines 285-294): revoke and untrack every
held download URL in list order, then empty the list. -/
def clearAllW (w : World) : World :=
  { state := clearAllOp w.state
    objectUrls := (heldUrls w.state.files).foldl (fun acc u => acc.erase u) w.objectUrls
    createdUrls := w.createdUrls
    revokedUrls := w.revokedUrls ++ heldUrls w.state.files }

/-- One step of the insert/schedule/complete/remove scenario for the
handle-conservation claim.  Completions are dispatched by the scheduler
for an item that is in the list with status `processing`, and
`URL.createObjectURL` returns a fresh non-empty URL. -/
inductive WStep : World → World → Prop
  | select (w : World) (sel : List (Nat × SrcFile))
      (hfresh : (w.state.files.map (fun f => f.id) ++ sel.map (fun p => p.1)).Nodup) :
      WStep w (insertW w sel)
  | schedule (w : World) : WStep w (scheduleW w)
  | completeSuccess (w : World) (item : FileItem) (format : OutputFormat) (blobUrl : String)
      (hmem : item ∈ w.state.files) (hst : item.status = Status.processing)
      (hfresh : blobUrl ∉ w.createdUrls) (hne : blobUrl ≠ "") :
      WStep w (completeSuccessW w item format blobUrl)
  | completeError (w : World) (item : FileItem) (msg : String)
      (hmem : item ∈ w.state.files) (hst : item.status = Status.processing) :
      WStep w (completeErrorW w item msg)
  | remove (w : World) (id : Nat) : WStep w (removeFileW w id)

/-- Worlds reachable in the scenario: any number of insertions,
scheduling passes, dispatched completions and removals from the fresh
component. -/
inductive ReachableW : World → Prop
  | init : ReachableW initialWorld
  | step {w w' : World} : ReachableW w → WStep w w' → ReachableW w'

/-- The download side effect `handleDownload` performs: a temporary
anchor with these `href` and `download` attributes is clicked. -/
structure DownloadEffect where
  href : String
  download : String
deriving DecidableEq

/-- `handleDownload` (`Converter` lines 198-209): a guard on a truthy
`downloadUrl` and `filename`, then a pure DOM side effect.  It neither
revokes the URL nor calls `setState`, so the world is returned
untouched alongside the triggered effect. -/
def handleDownload (w : World) (fileItem : FileItem) : World × Option DownloadEffect :=
  if fileItem.downloadUrl = "" ∨ fileItem.filename = "" then (w, none)
  else (w, some ⟨fileItem.downloadUrl, fileItem.filename⟩)

/-- Scheduler invariant: ids are pairwise distinct (they come from
`crypto.randomUUID()`), and the number of `processing` items respects
the concurrency cap. -/
def QInv (s : ConverterState) : Prop :=
  (s.files.map fun f => f.id).Nodup ∧
  processingCount s.files ≤ MAX_CONCURRENT_CONVERSIONS

/-- Ledger invariant for the handle-conservation scenario: ids are
pairwise distinct; only `success` items hold a download URL; the
created URLs are pairwise distinct, and each of them is either held by
exactly one listed item or already revoked; the tracked set contains
exactly the held URLs. -/
structure Winv (w : World) : Prop where
  nodupIds : (w.state.files.map fun f => f.id).Nodup
  urlStatus : ∀ f ∈ w.state.files, f.downloadUrl ≠ "" → f.status = Status.success
  nodupCreated : w.createdUrls.Nodup
  ledger : w.createdUrls.Perm (heldUrls w.state.files ++ w.revokedUrls)
  tracked : w.objectUrls.Perm (heldUrls w.state.files)

/-- A 2 KB payload with a correct `ftypheic` magic-byte header. -/
def sampleHeicBytes : List Nat := [0, 0, 0, 24] ++ ("ftypheic".data.map Char.toNat)

/-- A 2 KB payload declaring brand `mp41` (not in the recognized set). -/
def sampleMp41Bytes : List Nat := [0, 0, 0, 24] ++ ("ftypmp41".data.map Char.toNat)

/-- A well-formed sample submission. -/
def sampleHeicFile : SrcFile := ⟨"a.heic", 2048, sampleHeicBytes, false⟩

/-- A sample submission with a `.heic` name but an `mp41` brand. -/
def sampleMp41File : SrcFile := ⟨"b.heic", 2048, sampleMp41Bytes, false⟩

/-- A queue state with the global fault set (the browser-unsupported
message written by the compatibility effect) and one validated item
still `idle`. -/
def c1FaultState : ConverterState :=
  ⟨[⟨1, sampleHeicFile, Status.idle, "", "", ""⟩],
   some ERROR_MESSAGES_BROWSER_UNSUPPORTED, OutputFormat.jpeg⟩

/-- Four validated submissions inserted into the fresh component. -/
def c2SelectState : ConverterState :=
  handleFileSelect initialState
    [(1, sampleHeicFile), (2, sampleHeicFile), (3, sampleHeicFile), (4, sampleHeicFile)]

/-- The item as inserted for the scenario world below. -/
def c7ItemIdle : FileItem := mkFileItem 1 sampleHeicFile

/-- The same item once the scheduling pass has promoted it. -/
def c7ItemProcessing : FileItem := { c7ItemIdle with status := Status.processing }

/-- Scenario world: one file inserted. -/
def c7W1 : World := insertW initialWorld [(1, sampleHeicFile)]

/-- Scenario world: the scheduling pass has promoted the item. -/
def c7W2 : World := scheduleW c7W1

/-- Scenario world: the conversion completed successfully with blob URL
`blob:1`. -/
def c7W3 : World := completeSuccessW c7W2 c7ItemProcessing OutputFormat.jpeg "blob:1"

/-! ### Helper lemmas -/

theorem byteAt_take (l : List Nat) (n i : Nat) (h : i < n) :
    byteAt (l.take n) i = byteAt l i := by
  induction l generalizing n i with
  | nil => simp [List.take_nil]
  | cons b t ih =>
    cases n with
    | zero => omega
    | succ m =>
      cases i with
      | zero => rfl
      | succ j => exact ih m j (by omega)

theorem byteAt_eq_zero (l : List Nat) (i : Nat) (h : l.length ≤ i) : byteAt l i = 0 := by
  induction l generalizing i with
  | nil => rfl
  | cons b t ih =>
    cases i with
    | zero => simp at h
    | succ j => exact ih j (by simpa using h)

theorem lt_length_of_byteAt_ne_zero (l : List Nat) (i : Nat) (h : byteAt l i ≠ 0) :
    i < l.length := by
  by_contra hc
  exact h (byteAt_eq_zero l i (by omega))

theorem validBrands_last_ne_zero (b8 b9 b10 b11 : Nat)
    (h : [b8, b9, b10, b11] ∈ validBrands) : b11 ≠ 0 := by
  have hv : validBrands =
      [[104, 101, 105, 99], [104, 101, 105, 120], [104, 101, 118, 99], [104, 101, 118, 120],
       [104, 101, 105, 109], [104, 101, 105, 115], [104, 101, 118, 109], [104, 101, 118, 115],
       [109, 105, 102, 49], [109, 115, 102, 49]] := by decide
  rw [hv] at h
  simp only [List.mem_cons, List.not_mem_nil, or_false] at h
  rcases h with h | h | h | h | h | h | h | h | h | h <;> simp [List.cons.injEq] at h <;> omega

/-- C3: the magic-byte sniffer returns true exactly when the read does
not fault, the payload has at least 12 bytes, bytes 4-7 spell `ftyp`,
and bytes 8-11 spell one of the ten recognized brands; every other
byte pattern — including payloads shorter than 12 bytes and any read
fault — yields false. -/
theorem c3_sniffer_correct (f : SrcFile) :
    isValidHeicFile f = true ↔
      f.readFault = false ∧ 12 ≤ f.bytes.length ∧
      [byteAt f.bytes 4, byteAt f.bytes 5, byteAt f.bytes 6, byteAt f.bytes 7] = ftypCode ∧
      [byteAt f.bytes 8, byteAt f.bytes 9, byteAt f.bytes 10, byteAt f.bytes 11] ∈ validBrands := by
  unfold isValidHeicFile readFirst12
  cases hrf : f.readFault with
  | true => simp
  | false =>
    simp only [Bool.false_eq_true, if_false, true_and]
    constructor
    · intro h
      by_cases hft :
          [byteAt (f.bytes.take 12) 4, byteAt (f.bytes.take 12) 5,
           byteAt (f.bytes.take 12) 6, byteAt (f.bytes.take 12) 7] = ftypCode
      · rw [if_neg (by simpa using hft)] at h
        have hbr := of_decide_eq_true h
        have hb11 : byteAt (f.bytes.take 12) 11 ≠ 0 :=
          validBrands_last_ne_zero _ _ _ _ hbr
        have hlen12 : 11 < (f.bytes.take 12).length :=
          lt_length_of_byteAt_ne_zero _ _ hb11
        have hlen : 12 ≤ f.bytes.length := by
          rw [List.length_take] at hlen12; omega
        refine ⟨hlen, ?_, ?_⟩
        · rw [← byteAt_take f.bytes 12 4 (by omega), ← byteAt_take f.bytes 12 5 (by omega),
              ← byteAt_take f.bytes 12 6 (by omega), ← byteAt_take f.bytes 12 7 (by omega)]
          exact hft
        · rw [← byteAt_take f.bytes 12 8 (by omega), ← byteAt_take f.bytes 12 9 (by omega),
              ← byteAt_take f.bytes 12 10 (by omega), ← byteAt_take f.bytes 12 11 (by omega)]
          exact hbr
      · rw [if_pos (by simpa using hft)] at h
        exact absurd h (by simp)
    · rintro ⟨hlen, hft, hbr⟩
      rw [byteAt_take f.bytes 12 4 (by omega), byteAt_take f.bytes 12 5 (by omega),
          byteAt_take f.bytes 12 6 (by omega), byteAt_take f.bytes 12 7 (by omega),
          byteAt_take f.bytes 12 8 (by omega), byteAt_take f.bytes 12 9 (by omega),
          byteAt_take f.bytes 12 10 (by omega), byteAt_take f.bytes 12 11 (by omega)]
      rw [if_neg (by simpa using hft)]
      exact decide_eq_true hbr

/-- C4: a file whose name fails the case-insensitive extension check
gets the `InvalidFormat` rejection even when its size also exceeds the
threshold — never `FileTooLarge` — and a file with a valid extension is
rejected as `FileTooLarge` exactly when its size exceeds 50 MiB. -/
theorem c4_validation_order (f : SrcFile) :
    (hasValidExtension f.name = false → FILE_CONSTRAINTS_maxSize < f.size →
      validateFile f = ⟨false, ERROR_MESSAGES_INVALID_FORMAT⟩ ∧
      validateFile f ≠ ⟨false, ERROR_MESSAGES_FILE_TOO_LARGE⟩)
  ∧ (hasValidExtension f.name = true →
      (validateFile f = ⟨false, ERROR_MESSAGES_FILE_TOO_LARGE⟩ ↔
        FILE_CONSTRAINTS_maxSize < f.size)) := by
  constructor
  · intro hext _
    have hval : validateFile f = ⟨false, ERROR_MESSAGES_INVALID_FORMAT⟩ := by
      unfold validateFile
      rw [if_pos hext]
    refine ⟨hval, ?_⟩
    rw [hval]
    intro hcontra
    have : ERROR_MESSAGES_INVALID_FORMAT = ERROR_MESSAGES_FILE_TOO_LARGE := by
      injection hcontra
    exact absurd this (by decide)
  · intro hext
    unfold validateFile
    rw [if_neg (by simp [hext])]
    by_cases hs : FILE_CONSTRAINTS_maxSize < f.size
    · rw [if_pos hs]
      simp [hs]
    · rw [if_neg hs]
      constructor
      · intro hcontra
        have : True = False := by
          have := congrArg FileValidationResult.isValid hcontra
          simp at this
        exact absurd this (by simp)
      · intro h; exact absurd h hs

/-- Witness for C4 at concrete inputs: an oversized `.png` is rejected
as `InvalidFormat`, an oversized `.heic` as `FileTooLarge`. -/
theorem c4_validation_order_witness :
    validateFile ⟨"big.png", 60 * 1024 * 1024, [], false⟩ =
      ⟨false, ERROR_MESSAGES_INVALID_FORMAT⟩ ∧
    validateFile ⟨"big.heic", 60 * 1024 * 1024, [], false⟩ =
      ⟨false, ERROR_MESSAGES_FILE_TOO_LARGE⟩ := by
  constructor
  · exact ((c4_validation_order ⟨"big.png", 60 * 1024 * 1024, [], false⟩).1
      (by decide) (by decide)).1
  · exact ((c4_validation_order ⟨"big.heic", 60 * 1024 * 1024, [], false⟩).2
      (by decide)).mpr (by decide)

/-- C5: when the structural sniff fails the conversion resolves to the
generic `ConversionFailed` error for every possible decode outcome (so
the external routine's result is irrelevant — it is never consulted),
and every failing decode outcome (throw/rejection, non-Blob resolution,
missing or non-Blob first array element) collapses to the same single
error result. -/
theorem c5_failure_collapse (f : SrcFile) (format : OutputFormat) (decode : DecodeOutcome)
    (h : isValidHeicFile f = false ∨ decodeFailed decode = true) :
    convertFile f format decode = ⟨false, none, some ERROR_MESSAGES_CONVERSION_FAILED⟩ := by
  unfold convertFile
  rcases h with h | h
  · rw [if_pos h]
  · by_cases hv : isValidHeicFile f = false
    · rw [if_pos hv]
    · rw [if_neg hv]
      cases decode with
      | throw => rfl
      | ret v =>
        cases v with
        | blob b => simp [decodeFailed] at h
        | nonBlob => rfl
      | retList vs =>
        cases hh : vs.head? with
        | none => simp [hh]
        | some v =>
          cases v with
          | blob b => simp [decodeFailed, hh] at h
          | nonBlob => simp [hh]

/-- Witness for C5: the Scenario-B payload (`.heic` name, brand `mp41`)
fails the sniff, so even a decode outcome that would succeed yields the
generic error; and on the well-formed payload a thrown decode collapses
to the same error. -/
theorem c5_failure_collapse_witness :
    convertFile sampleMp41File OutputFormat.jpeg (DecodeOutcome.ret (JsValue.blob [7])) =
      ⟨false, none, some ERROR_MESSAGES_CONVERSION_FAILED⟩ ∧
    convertFile sampleHeicFile OutputFormat.jpeg DecodeOutcome.throw =
      ⟨false, none, some ERROR_MESSAGES_CONVERSION_FAILED⟩ := by
  constructor
  · exact c5_failure_collapse sampleMp41File OutputFormat.jpeg _ (Or.inl (by decide))
  · exact c5_failure_collapse sampleHeicFile OutputFormat.jpeg _ (Or.inr (by decide))

theorem jsToLower_append (s t : String) :
    jsToLower (s ++ t) = jsToLower s ++ jsToLower t := by
  have hrhs : jsToLower s ++ jsToLower t =
      String.mk (s.data.map Char.toLower ++ t.data.map Char.toLower) := rfl
  rw [hrhs]
  unfold jsToLower
  exact congrArg String.mk (by rw [String.data_append, List.map_append])

theorem jsEndsWith_append (s t : String) : jsEndsWith (s ++ t) t = true := by
  unfold jsEndsWith
  rw [String.data_append]
  simpa [List.isSuffixOf_iff_suffix] using List.suffix_append s.data t.data

theorem jsDropRight_append (s t : String) : jsDropRight (s ++ t) t.data.length = s := by
  unfold jsDropRight
  rw [String.data_append, List.length_append, Nat.add_sub_cancel, List.take_left]

/-- C8: the output name replaces a case-insensitively matched
`.heic`/`.HEIC` extension with the extension of the requested output
type — `.jpg` for JPEG and `.png` for PNG — as in the claim's two
examples, and in general for any name `stem ++ sfx` whose suffix
lower-cases to `.heic`. -/
theorem c8_name_derivation :
    outputFilename "IMG_0001.HEIC" OutputFormat.jpeg = "IMG_0001.jpg"
  ∧ outputFilename "photo.heic" OutputFormat.png = "photo.png"
  ∧ ∀ (stem sfx : String) (format : OutputFormat),
      jsToLower sfx = ".heic" →
      outputFilename (stem ++ sfx) format = stem ++ outputExtension format := by
  refine ⟨by decide, by decide, ?_⟩
  intro stem sfx format hsfx
  have hlen : sfx.data.length = 5 := by
    have h := congrArg (fun x => x.data.length) hsfx
    simpa [jsToLower] using h
  have hend : jsEndsWith (jsToLower (stem ++ sfx)) ".heic" = true := by
    rw [jsToLower_append, hsfx]
    exact jsEndsWith_append _ _
  unfold outputFilename
  rw [if_pos hend, show (5 : Nat) = sfx.data.length from hlen.symm, jsDropRight_append]

/-- Witness for C8 at a mixed-case suffix. -/
theorem c8_name_derivation_witness :
    outputFilename ("photo" ++ ".HeIc") OutputFormat.png = "photo" ++ outputExtension OutputFormat.png :=
  c8_name_derivation.2.2 "photo" ".HeIc" OutputFormat.png (by decide)

/-- C9: a completion (success or failure) whose dispatched id is no
longer in the file list changes nothing: both completion updates map
the list to itself, and the whole state is unchanged. -/
theorem c9_late_completion_discarded (s : ConverterState) (id : Nat)
    (blobUrl filename msg : String) (h : ∀ f ∈ s.files, f.id ≠ id) :
    setFileSuccess s.files id blobUrl filename = s.files
  ∧ setFileError s.files id msg = s.files
  ∧ { s with files := setFileSuccess s.files id blobUrl filename } = s
  ∧ { s with files := setFileError s.files id msg } = s := by
  have h1 : setFileSuccess s.files id blobUrl filename = s.files := by
    unfold setFileSuccess
    exact (List.map_congr_left fun f hf => by
      rw [if_neg (by simpa using h f hf)]).trans (by simp)
  have h2 : setFileError s.files id msg = s.files := by
    unfold setFileError
    exact (List.map_congr_left fun f hf => by
      rw [if_neg (by simpa using h f hf)]).trans (by simp)
  exact ⟨h1, h2, by rw [h1], by rw [h2]⟩

/-- Witness for C9: completing id 2 in a one-item list holding id 1. -/
theorem c9_late_completion_discarded_witness :
    setFileSuccess [⟨1, sampleHeicFile, Status.processing, "", "", ""⟩] 2 "blob:9" "x.jpg" =
      [⟨1, sampleHeicFile, Status.processing, "", "", ""⟩] :=
  (c9_late_completion_discarded
    ⟨[⟨1, sampleHeicFile, Status.processing, "", "", ""⟩], none, OutputFormat.jpeg⟩
    2 "blob:9" "x.jpg" "msg" (by decide)).1

/-- C10: downloading leaves the world (queue state, tracked set, URL
histories) untouched, a repeated download behaves identically, and on a
completed item the triggered effect carries the stored URL and name. -/
theorem c10_download_frame (w : World) (fileItem : FileItem) :
    (handleDownload w fileItem).1 = w
  ∧ handleDownload (handleDownload w fileItem).1 fileItem = handleDownload w fileItem
  ∧ (fileItem.downloadUrl ≠ "" → fileItem.filename ≠ "" →
      (handleDownload w fileItem).2 = some ⟨fileItem.downloadUrl, fileItem.filename⟩) := by
  have h1 : (handleDownload w fileItem).1 = w := by
    unfold handleDownload
    split <;> rfl
  refine ⟨h1, by rw [h1], ?_⟩
  intro hu hf
  unfold handleDownload
  rw [if_neg (by simp [hu, hf])]

/-- Witness for C10 on a completed item. -/
theorem c10_download_frame_witness :
    (handleDownload initialWorld ⟨1, sampleHeicFile, Status.success, "", "blob:1", "a.jpg"⟩).2 =
      some ⟨"blob:1", "a.jpg"⟩ :=
  (c10_download_frame initialWorld ⟨1, sampleHeicFile, Status.success, "", "blob:1", "a.jpg"⟩).2.2
    (by decide) (by decide)

/-- C1 (evaluation at the failing input): with the global fault set and
one validated item still `idle`, the scheduling pass — which never
reads `globalError` — promotes the item to `processing` anyway. -/
theorem c1_fault_ignored_eval :
    c1FaultState.globalError = some ERROR_MESSAGES_BROWSER_UNSUPPORTED
  ∧ (c1FaultState.files.map fun f => f.status) = [Status.idle]
  ∧ ((schedulePass c1FaultState).files.map fun f => f.status) = [Status.processing]
  ∧ (schedulePass c1FaultState).globalError = some ERROR_MESSAGES_BROWSER_UNSUPPORTED := by
  decide

/-! ### Scheduler lemmas -/

theorem processingCount_eq_countP (files : List FileItem) :
    processingCount files = files.countP fun f => decide (f.status = Status.processing) := by
  unfold processingCount
  exact (List.countP_eq_length_filter _ _).symm

theorem schedulePass_eq (s : ConverterState) :
    schedulePass s =
      if processingCount s.files < MAX_CONCURRENT_CONVERSIONS then
        if 0 < ((idleFiles s.files).take
            (MAX_CONCURRENT_CONVERSIONS - processingCount s.files)).length then
          { s with files := (promote s.files ((idleFiles s.files).take
              (MAX_CONCURRENT_CONVERSIONS - processingCount s.files))) }
        else s
      else s := rfl

theorem countP_promote (files nextFiles : List FileItem) :
    ((promote files nextFiles).countP fun f => decide (f.status = Status.processing))
      = files.countP fun f =>
          (nextFiles.any fun nf => decide (nf.id = f.id)) ||
            decide (f.status = Status.processing) := by
  unfold promote
  rw [List.countP_map]
  apply List.countP_congr
  intro f _
  show decide ((markItem nextFiles f).status = Status.processing) = true ↔ _
  unfold markItem
  by_cases hc : (nextFiles.any fun nf => decide (nf.id = f.id)) = true
  · rw [if_pos hc]
    simp [hc]
  · rw [if_neg hc]
    simp [Bool.or_eq_true, hc]

theorem countP_or_split (l : List FileItem) (c p : FileItem → Bool) :
    (l.countP fun f => c f || p f)
      = l.countP p + l.countP fun f => c f && !(p f) := by
  induction l with
  | nil => simp
  | cons a t ih =>
    rw [List.countP_cons, List.countP_cons, List.countP_cons, ih]
    cases hc : c a <;> cases hp : p a <;> simp [hc, hp] <;> omega

theorem countP_matched_le (files nextFiles : List FileItem)
    (hnd : (files.map fun f => f.id).Nodup) :
    (files.countP fun f => nextFiles.any fun nf => decide (nf.id = f.id))
      ≤ nextFiles.length := by
  rw [List.countP_eq_length_filter]
  have hsub : List.Sublist
      ((files.filter fun f => nextFiles.any fun nf => decide (nf.id = f.id)).map fun f => f.id)
      (files.map fun f => f.id) := (List.filter_sublist files).map _
  have hnd2 : ((files.filter fun f => nextFiles.any fun nf => decide (nf.id = f.id)).map
      fun f => f.id).Nodup := hsub.nodup hnd
  have hss : ((files.filter fun f => nextFiles.any fun nf => decide (nf.id = f.id)).map
      fun f => f.id) ⊆ nextFiles.map fun f => f.id := by
    intro x hx
    simp only [List.mem_map, List.mem_filter] at hx
    rcases hx with ⟨f, ⟨_, hany⟩, rfl⟩
    rcases List.any_eq_true.mp hany with ⟨nf, hnf, hid⟩
    exact List.mem_map.mpr ⟨nf, hnf, of_decide_eq_true hid⟩
  calc (files.filter fun f => nextFiles.any fun nf => decide (nf.id = f.id)).length
      = ((files.filter fun f => nextFiles.any fun nf => decide (nf.id = f.id)).map
          fun f => f.id).length := (List.length_map _ _).symm
    _ ≤ (nextFiles.map fun f => f.id).length := (hnd2.subperm hss).length_le
    _ = nextFiles.length := List.length_map _ _

theorem ids_promote (files nextFiles : List FileItem) :
    ((promote files nextFiles).map fun f => f.id) = files.map fun f => f.id := by
  unfold promote
  rw [List.map_map]
  apply List.map_congr_left
  intro f _
  show (markItem nextFiles f).id = f.id
  unfold markItem
  split <;> rfl

theorem ids_setFileSuccess (files : List FileItem) (id : Nat) (u n : String) :
    ((setFileSuccess files id u n).map fun f => f.id) = files.map fun f => f.id := by
  unfold setFileSuccess
  rw [List.map_map]
  apply List.map_congr_left
  intro f _
  show (if decide (f.id = id) = true then _ else f).id = f.id
  split <;> rfl

theorem ids_setFileError (files : List FileItem) (id : Nat) (msg : String) :
    ((setFileError files id msg).map fun f => f.id) = files.map fun f => f.id := by
  unfold setFileError
  rw [List.map_map]
  apply List.map_congr_left
  intro f _
  show (if decide (f.id = id) = true then _ else f).id = f.id
  split <;> rfl

theorem processingCount_promote_le (files nextFiles : List FileItem)
    (hnd : (files.map fun f => f.id).Nodup) :
    processingCount (promote files nextFiles)
      ≤ processingCount files + nextFiles.length := by
  rw [processingCount_eq_countP, processingCount_eq_countP, countP_promote, countP_or_split]
  have h1 := countP_matched_le files nextFiles hnd
  have h2 : (files.countP fun f =>
      (nextFiles.any fun nf => decide (nf.id = f.id)) &&
        !(decide (f.status = Status.processing)))
      ≤ files.countP fun f => nextFiles.any fun nf => decide (nf.id = f.id) :=
    List.countP_mono_left fun f _ h => ((Bool.and_eq_true _ _).mp h).1
  omega

theorem qinv_schedulePass (s : ConverterState) (h : QInv s) : QInv (schedulePass s) := by
  obtain ⟨hnd, hpc⟩ := h
  rw [schedulePass_eq]
  by_cases h1 : processingCount s.files < MAX_CONCURRENT_CONVERSIONS
  · rw [if_pos h1]
    by_cases h2 : 0 < ((idleFiles s.files).take
        (MAX_CONCURRENT_CONVERSIONS - processingCount s.files)).length
    · rw [if_pos h2]
      constructor
      · show ((promote s.files ((idleFiles s.files).take
            (MAX_CONCURRENT_CONVERSIONS - processingCount s.files))).map fun f => f.id).Nodup
        rw [ids_promote]
        exact hnd
      · show processingCount (promote s.files ((idleFiles s.files).take
            (MAX_CONCURRENT_CONVERSIONS - processingCount s.files)))
          ≤ MAX_CONCURRENT_CONVERSIONS
        have hle := processingCount_promote_le s.files
          ((idleFiles s.files).take (MAX_CONCURRENT_CONVERSIONS - processingCount s.files)) hnd
        have hlen := List.length_take_le
          (MAX_CONCURRENT_CONVERSIONS - processingCount s.files) (idleFiles s.files)
        omega
    · rw [if_neg h2]
      exact ⟨hnd, hpc⟩
  · rw [if_neg h1]
    exact ⟨hnd, hpc⟩

theorem processingCount_setFileSuccess_le (files : List FileItem) (id : Nat) (u n : String) :
    processingCount (setFileSuccess files id u n) ≤ processingCount files := by
  rw [processingCount_eq_countP, processingCount_eq_countP]
  unfold setFileSuccess
  rw [List.countP_map]
  apply List.countP_mono_left
  intro f _ h
  simp only [Function.comp_apply] at h
  show decide (f.status = Status.processing) = true
  by_cases hid : decide (f.id = id) = true
  · rw [if_pos hid] at h
    simp at h
  · rw [if_neg hid] at h
    exact h

theorem processingCount_setFileError_le (files : List FileItem) (id : Nat) (msg : String) :
    processingCount (setFileError files id msg) ≤ processingCount files := by
  rw [processingCount_eq_countP, processingCount_eq_countP]
  unfold setFileError
  rw [List.countP_map]
  apply List.countP_mono_left
  intro f _ h
  simp only [Function.comp_apply] at h
  show decide (f.status = Status.processing) = true
  by_cases hid : decide (f.id = id) = true
  · rw [if_pos hid] at h
    simp at h
  · rw [if_neg hid] at h
    exact h

theorem qstep_inv {s s' : ConverterState} (h : QInv s) (hs : QStep s s') : QInv s' := by
  obtain ⟨hnd, hpc⟩ := h
  cases hs with
  | select sel hfresh =>
    constructor
    · show ((s.files ++ sel.map fun p => mkFileItem p.1 p.2).map fun f => f.id).Nodup
      rw [List.map_append, List.map_map]
      have hids : (sel.map ((fun f => f.id) ∘ fun p => mkFileItem p.1 p.2))
          = sel.map fun p => p.1 := List.map_congr_left fun p _ => rfl
      rw [hids]
      exact hfresh
    · show processingCount (s.files ++ sel.map fun p => mkFileItem p.1 p.2) ≤ _
      rw [processingCount_eq_countP, List.countP_append]
      have hz : ((sel.map fun p => mkFileItem p.1 p.2).countP fun f =>
          decide (f.status = Status.processing)) = 0 := by
        rw [List.countP_eq_zero]
        intro f hf
        simp only [List.mem_map] at hf
        rcases hf with ⟨p, _, rfl⟩
        simp only [mkFileItem, decide_eq_true_eq]
        split <;> simp
      rw [processingCount_eq_countP] at hpc
      omega
  | schedule => exact qinv_schedulePass s ⟨hnd, hpc⟩
  | completeSuccess id u n =>
    refine ⟨?_, le_trans (processingCount_setFileSuccess_le s.files id u n) hpc⟩
    show ((setFileSuccess s.files id u n).map fun f => f.id).Nodup
    rw [ids_setFileSuccess]
    exact hnd
  | completeError id msg =>
    refine ⟨?_, le_trans (processingCount_setFileError_le s.files id msg) hpc⟩
    show ((setFileError s.files id msg).map fun f => f.id).Nodup
    rw [ids_setFileError]
    exact hnd
  | remove id =>
    constructor
    · show ((s.files.filter fun f => decide (f.id ≠ id)).map fun f => f.id).Nodup
      exact ((List.filter_sublist s.files).map _).nodup hnd
    · show processingCount (s.files.filter fun f => decide (f.id ≠ id))
          ≤ MAX_CONCURRENT_CONVERSIONS
      rw [processingCount_eq_countP] at hpc ⊢
      exact le_trans ((List.filter_sublist s.files).countP_le _) hpc
  | clear =>
    exact ⟨by simp [clearAllOp], by simp [processingCount, clearAllOp]⟩
  | setFormat fmt => exact ⟨hnd, hpc⟩
  | setGlobalError msg => exact ⟨hnd, hpc⟩

theorem reachableQ_inv {s : ConverterState} (h : ReachableQ s) : QInv s := by
  induction h with
  | init fmt => exact ⟨by simp, by simp [processingCount]⟩
  | step _ hs ih => exact qstep_inv ih hs

/-- C2: in every reachable queue state the number of `processing` items
is at most the concurrency cap; it is still at most the cap after one
more scheduling pass, and a pass therefore promotes at most
cap-minus-currently-processing items. -/
theorem c2_concurrency_cap (s : ConverterState) (h : ReachableQ s) :
    processingCount s.files ≤ MAX_CONCURRENT_CONVERSIONS
  ∧ processingCount (schedulePass s).files ≤ MAX_CONCURRENT_CONVERSIONS
  ∧ processingCount (schedulePass s).files - processingCount s.files
      ≤ MAX_CONCURRENT_CONVERSIONS - processingCount s.files := by
  have hi := reachableQ_inv h
  obtain ⟨-, hpc'⟩ := qinv_schedulePass s hi
  obtain ⟨-, hpc⟩ := hi
  exact ⟨hpc, hpc', by omega⟩

/-- Witness for C2: four validated files inserted into the fresh
component; after a scheduling pass the `processing` count respects the
cap. -/
theorem c2_concurrency_cap_witness :
    processingCount (schedulePass c2SelectState).files ≤ MAX_CONCURRENT_CONVERSIONS :=
  (c2_concurrency_cap c2SelectState
    (ReachableQ.step (ReachableQ.init OutputFormat.jpeg)
      (QStep.select initialState
        [(1, sampleHeicFile), (2, sampleHeicFile), (3, sampleHeicFile), (4, sampleHeicFile)]
        (by decide)))).2.1

theorem countP_promoted_ge (files nextFiles : List FileItem)
    (hsub : List.Sublist nextFiles files)
    (hidle : ∀ f ∈ nextFiles, f.status = Status.idle) :
    nextFiles.length ≤ files.countP fun f =>
      (nextFiles.any fun nf => decide (nf.id = f.id)) &&
        !(decide (f.status = Status.processing)) := by
  have h1 : (nextFiles.countP fun f =>
      (nextFiles.any fun nf => decide (nf.id = f.id)) &&
        !(decide (f.status = Status.processing)))
      = nextFiles.length := by
    apply List.countP_eq_length.mpr
    intro f hf
    rw [Bool.and_eq_true]
    exact ⟨List.any_eq_true.mpr ⟨f, hf, by simp⟩, by simp [hidle f hf]⟩
  calc nextFiles.length
      = _ := h1.symm
    _ ≤ _ := hsub.countP_le _

theorem idleFiles_promote_nil (files nextFiles : List FileItem)
    (hall : ∀ f ∈ files, f.status = Status.idle →
      (nextFiles.any fun nf => decide (nf.id = f.id)) = true) :
    idleFiles (promote files nextFiles) = [] := by
  unfold idleFiles promote
  rw [List.filter_map]
  have h0 : files.filter ((fun f => decide (f.status = Status.idle)) ∘ markItem nextFiles)
      = [] := by
    rw [List.filter_eq_nil_iff]
    intro f hf
    simp only [Function.comp_apply]
    unfold markItem
    by_cases hc : (nextFiles.any fun nf => decide (nf.id = f.id)) = true
    · rw [if_pos hc]
      simp
    · rw [if_neg hc]
      simp only [decide_eq_true_eq]
      intro hid
      exact hc (hall f hf hid)
  rw [h0]
  rfl

/-- C6: the scheduling pass is idempotent — a second pass with no
intervening state change leaves the whole queue state (in particular
each item's status) unchanged, so no item is promoted twice. -/
theorem c6_scheduling_idempotent (s : ConverterState) :
    schedulePass (schedulePass s) = schedulePass s := by
  by_cases h1 : processingCount s.files < MAX_CONCURRENT_CONVERSIONS
  case neg =>
    have hs : schedulePass s = s := by rw [schedulePass_eq, if_neg h1]
    rw [hs]
    exact hs
  case pos =>
    by_cases h2 : 0 < ((idleFiles s.files).take
        (MAX_CONCURRENT_CONVERSIONS - processingCount s.files)).length
    case neg =>
      have hs : schedulePass s = s := by rw [schedulePass_eq, if_pos h1, if_neg h2]
      rw [hs]
      exact hs
    case pos =>
      set nf := (idleFiles s.files).take
        (MAX_CONCURRENT_CONVERSIONS - processingCount s.files) with hnfdef
      have hs : schedulePass s = { s with files := (promote s.files nf) } := by
        rw [schedulePass_eq, if_pos h1, if_pos h2]
      rw [hs]
      have hsub : List.Sublist nf s.files := by
        rw [hnfdef]
        exact (List.take_sublist _ _).trans (List.filter_sublist _)
      have hidle : ∀ f ∈ nf, f.status = Status.idle := by
        intro f hf
        rw [hnfdef] at hf
        have hmem := List.mem_of_mem_take hf
        simp only [idleFiles, List.mem_filter, decide_eq_true_eq] at hmem
        exact hmem.2
      have hcount : processingCount (promote s.files nf)
          = processingCount s.files + s.files.countP fun f =>
              (nf.any fun g => decide (g.id = f.id)) &&
                !(decide (f.status = Status.processing)) := by
        rw [processingCount_eq_countP, processingCount_eq_countP, countP_promote,
          countP_or_split]
      have hge := countP_promoted_ge s.files nf hsub hidle
      by_cases h3 : (idleFiles s.files).length
          ≤ MAX_CONCURRENT_CONVERSIONS - processingCount s.files
      · have hnfall : nf = idleFiles s.files := by
          rw [hnfdef]
          exact List.take_of_length_le h3
        have hidleNil : idleFiles (promote s.files nf) = [] := by
          apply idleFiles_promote_nil
          intro f hf hfi
          apply List.any_eq_true.mpr
          refine ⟨f, ?_, by simp⟩
          rw [hnfall]
          simp [idleFiles, List.mem_filter, hf, hfi]
        rw [schedulePass_eq]
        by_cases h4 : processingCount ({ s with files := (promote s.files nf) }).files
            < MAX_CONCURRENT_CONVERSIONS
        · rw [if_pos h4, if_neg ?hempty]
          case hempty =>
            show ¬ 0 < ((idleFiles (promote s.files nf)).take
              (MAX_CONCURRENT_CONVERSIONS -
                processingCount ({ s with files := (promote s.files nf) }).files)).length
            rw [hidleNil]
            simp
        · rw [if_neg h4]
      · push_neg at h3
        have hlen : nf.length = MAX_CONCURRENT_CONVERSIONS - processingCount s.files := by
          rw [hnfdef, List.length_take]
          omega
        have hfull : ¬ processingCount ({ s with files := (promote s.files nf) }).files
            < MAX_CONCURRENT_CONVERSIONS := by
          show ¬ processingCount (promote s.files nf) < MAX_CONCURRENT_CONVERSIONS
          rw [hcount]
          omega
        rw [schedulePass_eq, if_neg hfull]

/-! ### Resource-ledger lemmas -/

theorem heldUrls_cons (a : FileItem) (l : List FileItem) :
    heldUrls (a :: l) =
      if a.downloadUrl = "" then heldUrls l else a.downloadUrl :: heldUrls l := by
  unfold heldUrls
  rw [List.filterMap_cons]
  by_cases h : a.downloadUrl = ""
  · rw [if_pos h, if_pos h]
  · rw [if_neg h, if_neg h]

theorem heldUrls_append (l₁ l₂ : List FileItem) :
    heldUrls (l₁ ++ l₂) = heldUrls l₁ ++ heldUrls l₂ :=
  List.filterMap_append l₁ l₂ _

theorem heldUrls_mkItems (sel : List (Nat × SrcFile)) :
    heldUrls (sel.map fun p => mkFileItem p.1 p.2) = [] := by
  apply List.filterMap_eq_nil_iff.mpr
  intro f hf
  rcases List.mem_map.mp hf with ⟨p, -, rfl⟩
  rfl

theorem heldUrls_promote (files nextFiles : List FileItem) :
    heldUrls (promote files nextFiles) = heldUrls files := by
  unfold heldUrls promote
  rw [List.filterMap_map]
  apply List.filterMap_congr
  intro f _
  simp only [Function.comp_apply]
  unfold markItem
  split <;> rfl

theorem heldUrls_setFileError (files : List FileItem) (id : Nat) (msg : String) :
    heldUrls (setFileError files id msg) = heldUrls files := by
  unfold heldUrls setFileError
  rw [List.filterMap_map]
  apply List.filterMap_congr
  intro f _
  simp only [Function.comp_apply]
  split <;> rfl

theorem setFileSuccess_eq_of_forall_ne (files : List FileItem) (id : Nat) (u n : String)
    (h : ∀ f ∈ files, f.id ≠ id) : setFileSuccess files id u n = files := by
  unfold setFileSuccess
  exact (List.map_congr_left fun f hf => by
    rw [if_neg (by simpa using h f hf)]).trans (by simp)

theorem heldUrls_setFileSuccess (files : List FileItem) (item : FileItem) (u n : String)
    (hnd : (files.map fun f => f.id).Nodup) (hmem : item ∈ files)
    (hall : ∀ f ∈ files, f.id = item.id → f.downloadUrl = "") (hu : u ≠ "") :
    (heldUrls (setFileSuccess files item.id u n)).Perm (u :: heldUrls files) := by
  have hfnd : files.Nodup := hnd.of_map
  have hperm : files.Perm (item :: files.erase item) := List.perm_cons_erase hmem
  have htne : ∀ f ∈ files.erase item, f.id ≠ item.id := by
    intro f hf hfe
    rcases (hfnd.mem_erase_iff).mp hf with ⟨hne, hfm⟩
    exact hne (List.inj_on_of_nodup_map hnd hfm hmem hfe)
  have hitem : item.downloadUrl = "" := hall item hmem rfl
  have h1 : (heldUrls (setFileSuccess files item.id u n)).Perm
      (heldUrls (setFileSuccess (item :: files.erase item) item.id u n)) := by
    apply List.Perm.filterMap
    exact hperm.map _
  have h2 : setFileSuccess (item :: files.erase item) item.id u n =
      { item with status := Status.success, downloadUrl := u, filename := n }
        :: files.erase item := by
    have htail : setFileSuccess (files.erase item) item.id u n = files.erase item :=
      setFileSuccess_eq_of_forall_ne _ _ _ _ htne
    unfold setFileSuccess at htail ⊢
    rw [List.map_cons, htail, if_pos (by simp)]
  have h3 : heldUrls (setFileSuccess (item :: files.erase item) item.id u n)
      = u :: heldUrls (files.erase item) := by
    rw [h2, heldUrls_cons]
    exact if_neg hu
  have h4 : (heldUrls files).Perm (heldUrls (files.erase item)) := by
    have hp := hperm.filterMap (fun f => if f.downloadUrl = "" then none else some f.downloadUrl)
    rw [show List.filterMap (fun f => if f.downloadUrl = "" then none else some f.downloadUrl)
        (item :: files.erase item)
        = heldUrls (item :: files.erase item) from rfl, heldUrls_cons, if_pos hitem] at hp
    exact hp
  have h5 : (heldUrls (setFileSuccess files item.id u n)).Perm
      (u :: heldUrls (files.erase item)) := by
    rw [← h3]
    exact h1
  exact h5.trans (h4.symm.cons u)

theorem filter_ne_id_eq_erase (files : List FileItem) (f0 : FileItem)
    (hnd : (files.map fun f => f.id).Nodup) (hmem : f0 ∈ files) :
    (files.filter fun f => decide (f.id ≠ f0.id)) = files.erase f0 := by
  have hfnd : files.Nodup := hnd.of_map
  rw [hfnd.erase_eq_filter]
  apply List.filter_congr
  intro f hf
  by_cases h : f = f0
  · subst h
    simp
  · have hid : f.id ≠ f0.id := fun hide =>
      h (List.inj_on_of_nodup_map hnd hf hmem hide)
    simp [hid, h]

theorem foldl_erase_nil (m : List String) :
    ∀ l : List String, l.Perm m → (m.foldl (fun acc u => acc.erase u) l) = [] := by
  induction m with
  | nil =>
    intro l h
    simpa using List.perm_nil.mp h
  | cons u m' ih =>
    intro l h
    show m'.foldl (fun acc u => acc.erase u) (l.erase u) = []
    apply ih
    have h2 := h.erase u
    rwa [List.erase_cons_head] at h2

theorem winv_promote (w : World) (h : Winv w) (nextFiles : List FileItem)
    (hsub : ∀ g ∈ nextFiles, g ∈ w.state.files ∧ g.status = Status.idle) :
    Winv { w with state := { w.state with files := (promote w.state.files nextFiles) } } := by
  obtain ⟨hnd, hus, hnc, hled, htr⟩ := h
  refine ⟨?_, ?_, hnc, ?_, ?_⟩
  · show ((promote w.state.files nextFiles).map fun f => f.id).Nodup
    rw [ids_promote]
    exact hnd
  · intro f' hf' hne
    rcases List.mem_map.mp hf' with ⟨f, hf, rfl⟩
    unfold markItem at hne ⊢
    by_cases hc : (nextFiles.any fun nf => decide (nf.id = f.id)) = true
    · rw [if_pos hc] at hne ⊢
      exfalso
      rcases List.any_eq_true.mp hc with ⟨g, hg, hgid⟩
      rcases hsub g hg with ⟨hgm, hgidle⟩
      have hfg : g = f :=
        List.inj_on_of_nodup_map hnd hgm hf (of_decide_eq_true hgid)
      have hfidle : f.status = Status.idle := by rw [← hfg]; exact hgidle
      have hfsucc : f.status = Status.success := hus f hf (by simpa using hne)
      rw [hfidle] at hfsucc
      exact Status.noConfusion hfsucc
    · rw [if_neg hc] at hne ⊢
      exact hus f hf hne
  · show w.createdUrls.Perm (heldUrls (promote w.state.files nextFiles) ++ w.revokedUrls)
    rw [heldUrls_promote]
    exact hled
  · show w.objectUrls.Perm (heldUrls (promote w.state.files nextFiles))
    rw [heldUrls_promote]
    exact htr

theorem wstep_winv {w w' : World} (h : Winv w) (hs : WStep w w') : Winv w' := by
  obtain ⟨hnd, hus, hnc, hled, htr⟩ := h
  cases hs with
  | select sel hfresh =>
    refine ⟨?_, ?_, hnc, ?_, ?_⟩
    · show ((w.state.files ++ sel.map fun p => mkFileItem p.1 p.2).map fun f => f.id).Nodup
      rw [List.map_append, List.map_map]
      have hids : (sel.map ((fun f => f.id) ∘ fun p => mkFileItem p.1 p.2))
          = sel.map fun p => p.1 := List.map_congr_left fun p _ => rfl
      rw [hids]
      exact hfresh
    · intro f hf hne
      rcases List.mem_append.mp hf with hf | hf
      · exact hus f hf hne
      · rcases List.mem_map.mp hf with ⟨p, -, rfl⟩
        exact absurd rfl hne
    · show w.createdUrls.Perm
        (heldUrls (w.state.files ++ sel.map fun p => mkFileItem p.1 p.2) ++ w.revokedUrls)
      rw [heldUrls_append, heldUrls_mkItems, List.append_nil]
      exact hled
    · show w.objectUrls.Perm
        (heldUrls (w.state.files ++ sel.map fun p => mkFileItem p.1 p.2))
      rw [heldUrls_append, heldUrls_mkItems, List.append_nil]
      exact htr
  | schedule =>
    by_cases h1 : processingCount w.state.files < MAX_CONCURRENT_CONVERSIONS
    · by_cases h2 : 0 < ((idleFiles w.state.files).take
          (MAX_CONCURRENT_CONVERSIONS - processingCount w.state.files)).length
      · have he : scheduleW w = { w with state := { w.state with
            files := (promote w.state.files ((idleFiles w.state.files).take
              (MAX_CONCURRENT_CONVERSIONS - processingCount w.state.files))) } } := by
          unfold scheduleW
          rw [schedulePass_eq, if_pos h1, if_pos h2]
        rw [he]
        apply winv_promote w ⟨hnd, hus, hnc, hled, htr⟩
        intro g hg
        have hgm := List.mem_of_mem_take hg
        simp only [idleFiles, List.mem_filter, decide_eq_true_eq] at hgm
        exact hgm
      · have he : scheduleW w = w := by
          unfold scheduleW
          rw [schedulePass_eq, if_pos h1, if_neg h2]
        rw [he]
        exact ⟨hnd, hus, hnc, hled, htr⟩
    · have he : scheduleW w = w := by
        unfold scheduleW
        rw [schedulePass_eq, if_neg h1]
      rw [he]
      exact ⟨hnd, hus, hnc, hled, htr⟩
  | completeSuccess item format blobUrl hmem hst hfresh hne =>
    have hempty : item.downloadUrl = "" := by
      by_contra hneU
      have h2 := hus item hmem hneU
      rw [hst] at h2
      exact Status.noConfusion h2
    have hall : ∀ f ∈ w.state.files, f.id = item.id → f.downloadUrl = "" := by
      intro f hf hfe
      have hfi : f = item := List.inj_on_of_nodup_map hnd hf hmem hfe
      rw [hfi]
      exact hempty
    have hurlNotHeld : blobUrl ∉ heldUrls w.state.files := fun hx =>
      hfresh (hled.mem_iff.mpr (List.mem_append_left _ hx))
    have hurlNotTracked : blobUrl ∉ w.objectUrls := fun hx =>
      hurlNotHeld (htr.mem_iff.mp hx)
    have hheld := heldUrls_setFileSuccess w.state.files item blobUrl
      (outputFilename item.file.name format) hnd hmem hall hne
    have hobj : (completeSuccessW w item format blobUrl).objectUrls
        = w.objectUrls ++ [blobUrl] := by
      show (if blobUrl ∈ w.objectUrls then w.objectUrls else w.objectUrls ++ [blobUrl])
        = w.objectUrls ++ [blobUrl]
      rw [if_neg hurlNotTracked]
    refine ⟨?_, ?_, ?_, ?_, ?_⟩
    · show ((setFileSuccess w.state.files item.id blobUrl
        (outputFilename item.file.name format)).map fun f => f.id).Nodup
      rw [ids_setFileSuccess]
      exact hnd
    · intro f' hf' hne'
      rcases List.mem_map.mp hf' with ⟨f, hf, rfl⟩
      by_cases hid : decide (f.id = item.id) = true
      · rw [if_pos hid] at hne' ⊢
      · rw [if_neg hid] at hne' ⊢
        exact hus f hf hne'
    · show (w.createdUrls ++ [blobUrl]).Nodup
      rw [List.nodup_append]
      refine ⟨hnc, by simp, ?_⟩
      intro a ha hb
      rw [List.mem_singleton] at hb
      rw [hb] at ha
      exact hfresh ha
    · show (w.createdUrls ++ [blobUrl]).Perm (heldUrls (setFileSuccess w.state.files item.id
        blobUrl (outputFilename item.file.name format)) ++ w.revokedUrls)
      have hc1 : (w.createdUrls ++ [blobUrl]).Perm (blobUrl :: w.createdUrls) :=
        List.perm_append_singleton blobUrl w.createdUrls
      have hc2 : (blobUrl :: w.createdUrls).Perm
          (blobUrl :: (heldUrls w.state.files ++ w.revokedUrls)) := hled.cons blobUrl
      have hc3 : ((blobUrl :: heldUrls w.state.files) ++ w.revokedUrls).Perm
          (heldUrls (setFileSuccess w.state.files item.id blobUrl
            (outputFilename item.file.name format)) ++ w.revokedUrls) :=
        hheld.symm.append_right w.revokedUrls
      exact (hc1.trans hc2).trans hc3
    · rw [hobj]
      show (w.objectUrls ++ [blobUrl]).Perm (heldUrls (setFileSuccess w.state.files item.id
        blobUrl (outputFilename item.file.name format)))
      have ht1 : (w.objectUrls ++ [blobUrl]).Perm (blobUrl :: w.objectUrls) :=
        List.perm_append_singleton blobUrl w.objectUrls
      have ht2 : (blobUrl :: w.objectUrls).Perm (blobUrl :: heldUrls w.state.files) :=
        htr.cons blobUrl
      exact (ht1.trans ht2).trans hheld.symm
  | completeError item msg hmem hst =>
    have hempty : item.downloadUrl = "" := by
      by_contra hneU
      have h2 := hus item hmem hneU
      rw [hst] at h2
      exact Status.noConfusion h2
    refine ⟨?_, ?_, hnc, ?_, ?_⟩
    · show ((setFileError w.state.files item.id msg).map fun f => f.id).Nodup
      rw [ids_setFileError]
      exact hnd
    · intro f' hf' hne'
      rcases List.mem_map.mp hf' with ⟨f, hf, rfl⟩
      by_cases hid : decide (f.id = item.id) = true
      · exfalso
        have hfi : f = item :=
          List.inj_on_of_nodup_map hnd hf hmem (of_decide_eq_true hid)
        rw [if_pos hid] at hne'
        apply hne'
        show f.downloadUrl = ""
        rw [hfi]
        exact hempty
      · rw [if_neg hid] at hne' ⊢
        exact hus f hf hne'
    · show w.createdUrls.Perm (heldUrls (setFileError w.state.files item.id msg)
        ++ w.revokedUrls)
      rw [heldUrls_setFileError]
      exact hled
    · show w.objectUrls.Perm (heldUrls (setFileError w.state.files item.id msg))
      rw [heldUrls_setFileError]
      exact htr
  | remove id =>
    unfold removeFileW
    cases hfind : w.state.files.find? fun f => decide (f.id = id) with
    | none =>
      have hfe : (w.state.files.filter fun f => decide (f.id ≠ id)) = w.state.files := by
        apply List.filter_eq_self.mpr
        intro f hf
        have hni := List.find?_eq_none.mp hfind f hf
        simp only [decide_eq_true_eq] at hni ⊢
        exact hni
      refine ⟨?_, ?_, hnc, ?_, ?_⟩
      · show ((w.state.files.filter fun f => decide (f.id ≠ id)).map fun f => f.id).Nodup
        rw [hfe]
        exact hnd
      · show ∀ f ∈ w.state.files.filter fun f => decide (f.id ≠ id), _
        rw [hfe]
        exact hus
      · show w.createdUrls.Perm
          (heldUrls (w.state.files.filter fun f => decide (f.id ≠ id)) ++ w.revokedUrls)
        rw [hfe]
        exact hled
      · show w.objectUrls.Perm (heldUrls (w.state.files.filter fun f => decide (f.id ≠ id)))
        rw [hfe]
        exact htr
    | some f0 =>
      have hf0mem := List.mem_of_find?_eq_some hfind
      have hpred := @List.find?_some FileItem (fun f => decide (f.id = id)) f0
        w.state.files hfind
      have hf0id : f0.id = id := of_decide_eq_true hpred
      subst hf0id
      have hperm : w.state.files.Perm
          (f0 :: w.state.files.filter fun f => decide (f.id ≠ f0.id)) := by
        rw [filter_ne_id_eq_erase w.state.files f0 hnd hf0mem]
        exact List.perm_cons_erase hf0mem
      have hheldp : (heldUrls w.state.files).Perm
          (heldUrls (f0 :: w.state.files.filter fun f => decide (f.id ≠ f0.id))) :=
        hperm.filterMap _
      have hndf : ((w.state.files.filter fun f => decide (f.id ≠ f0.id)).map
          fun f => f.id).Nodup := ((List.filter_sublist w.state.files).map _).nodup hnd
      have husf : ∀ f ∈ w.state.files.filter fun f => decide (f.id ≠ f0.id),
          f.downloadUrl ≠ "" → f.status = Status.success := fun f hf =>
        hus f (List.mem_of_mem_filter hf)
      show Winv (if f0.downloadUrl = "" then
        ⟨removeFileOp w.state f0.id, w.objectUrls, w.createdUrls, w.revokedUrls⟩
      else
        ⟨removeFileOp w.state f0.id, w.objectUrls.erase f0.downloadUrl, w.createdUrls,
          w.revokedUrls ++ [f0.downloadUrl]⟩)
      by_cases hu : f0.downloadUrl = ""
      · rw [if_pos hu]
        have hheld2 : (heldUrls w.state.files).Perm
            (heldUrls (w.state.files.filter fun f => decide (f.id ≠ f0.id))) := by
          have hh := hheldp
          rw [heldUrls_cons, if_pos hu] at hh
          exact hh
        refine ⟨hndf, husf, hnc, ?_, ?_⟩
        · show w.createdUrls.Perm
            (heldUrls (w.state.files.filter fun f => decide (f.id ≠ f0.id)) ++ w.revokedUrls)
          exact hled.trans (hheld2.append_right w.revokedUrls)
        · show w.objectUrls.Perm
            (heldUrls (w.state.files.filter fun f => decide (f.id ≠ f0.id)))
          exact htr.trans hheld2
      · rw [if_neg hu]
        have hheld2 : (heldUrls w.state.files).Perm
            (f0.downloadUrl :: heldUrls (w.state.files.filter fun f => decide (f.id ≠ f0.id))) := by
          have hh := hheldp
          rw [heldUrls_cons, if_neg hu] at hh
          exact hh
        refine ⟨hndf, husf, hnc, ?_, ?_⟩
        · show w.createdUrls.Perm
            (heldUrls (w.state.files.filter fun f => decide (f.id ≠ f0.id))
              ++ (w.revokedUrls ++ [f0.downloadUrl]))
          have hc1 : w.createdUrls.Perm
              ((f0.downloadUrl :: heldUrls (w.state.files.filter fun f =>
                decide (f.id ≠ f0.id))) ++ w.revokedUrls) :=
            hled.trans (hheld2.append_right w.revokedUrls)
          have hc2 : ((f0.downloadUrl :: heldUrls (w.state.files.filter fun f =>
              decide (f.id ≠ f0.id))) ++ w.revokedUrls).Perm
              ((heldUrls (w.state.files.filter fun f => decide (f.id ≠ f0.id))
                ++ w.revokedUrls) ++ [f0.downloadUrl]) :=
            (List.perm_append_singleton f0.downloadUrl _).symm
          have hc3 : (heldUrls (w.state.files.filter fun f => decide (f.id ≠ f0.id))
              ++ w.revokedUrls) ++ [f0.downloadUrl]
              = heldUrls (w.state.files.filter fun f => decide (f.id ≠ f0.id))
                ++ (w.revokedUrls ++ [f0.downloadUrl]) := List.append_assoc _ _ _
          rw [← hc3]
          exact hc1.trans hc2
        · show (w.objectUrls.erase f0.downloadUrl).Perm
            (heldUrls (w.state.files.filter fun f => decide (f.id ≠ f0.id)))
          have ht1 := (htr.trans hheld2).erase f0.downloadUrl
          rwa [List.erase_cons_head] at ht1

theorem reachableW_winv {w : World} (h : ReachableW w) : Winv w := by
  induction h with
  | init =>
    exact ⟨by simp [initialWorld, initialState], by simp [initialWorld, initialState],
      by simp [initialWorld], by simp [initialWorld, initialState, heldUrls],
      by simp [initialWorld, initialState, heldUrls]⟩
  | step _ hs ih => exact wstep_winv ih hs

/-- C7: in any scenario world (insertions, scheduling passes, dispatched
completions, removals), `clearAll` leaves every created URL revoked
exactly once, empties the tracked set and the list; and `removeFile` on
an item holding a download URL revokes that URL, untracks it, and drops
the item from the list — release happens with the removal. -/
theorem c7_handle_conservation (w : World) (hw : ReachableW w) :
    (∀ u ∈ (clearAllW w).createdUrls, (clearAllW w).revokedUrls.count u = 1)
  ∧ (clearAllW w).objectUrls = []
  ∧ (clearAllW w).state.files = []
  ∧ ∀ f ∈ w.state.files, f.downloadUrl ≠ "" →
      f.downloadUrl ∈ (removeFileW w f.id).revokedUrls
      ∧ f.downloadUrl ∉ (removeFileW w f.id).objectUrls
      ∧ ∀ g ∈ (removeFileW w f.id).state.files, g.id ≠ f.id := by
  obtain ⟨hnd, hus, hnc, hled, htr⟩ := reachableW_winv hw
  refine ⟨?_, ?_, rfl, ?_⟩
  · intro u hu
    have hcu : u ∈ w.createdUrls := hu
    have h1 : w.createdUrls.count u = 1 := List.count_eq_one_of_mem hnc hcu
    have h2 : (heldUrls w.state.files ++ w.revokedUrls).count u = 1 := by
      rw [← hled.count_eq u]
      exact h1
    show (w.revokedUrls ++ heldUrls w.state.files).count u = 1
    rw [List.count_append] at h2 ⊢
    omega
  · exact foldl_erase_nil (heldUrls w.state.files) w.objectUrls htr
  · intro f hf hne
    unfold removeFileW
    cases hfind : w.state.files.find? fun g => decide (g.id = f.id) with
    | none =>
      exfalso
      have hni := List.find?_eq_none.mp hfind f hf
      simp at hni
    | some f0 =>
      have hf0mem := List.mem_of_find?_eq_some hfind
      have hpred := @List.find?_some FileItem (fun g => decide (g.id = f.id)) f0
        w.state.files hfind
      have hf0f : f0 = f :=
        List.inj_on_of_nodup_map hnd hf0mem hf (of_decide_eq_true hpred)
      subst hf0f
      show (fun w' : World => f0.downloadUrl ∈ w'.revokedUrls
          ∧ f0.downloadUrl ∉ w'.objectUrls
          ∧ ∀ g ∈ w'.state.files, g.id ≠ f0.id)
        (if f0.downloadUrl = "" then
          ⟨removeFileOp w.state f0.id, w.objectUrls, w.createdUrls, w.revokedUrls⟩
        else
          ⟨removeFileOp w.state f0.id, w.objectUrls.erase f0.downloadUrl, w.createdUrls,
            w.revokedUrls ++ [f0.downloadUrl]⟩)
      rw [if_neg hne]
      refine ⟨List.mem_append_right _ (List.mem_cons_self _ _), ?_, ?_⟩
      · have hperm : w.state.files.Perm
            (f0 :: w.state.files.filter fun g => decide (g.id ≠ f0.id)) := by
          rw [filter_ne_id_eq_erase w.state.files f0 hnd hf0mem]
          exact List.perm_cons_erase hf0mem
        have hheld2 : (heldUrls w.state.files).Perm
            (f0.downloadUrl :: heldUrls (w.state.files.filter fun g =>
              decide (g.id ≠ f0.id))) := by
          have hh := hperm.filterMap
            (fun g => if g.downloadUrl = "" then none else some g.downloadUrl)
          rw [show List.filterMap (fun g => if g.downloadUrl = "" then none
              else some g.downloadUrl)
              (f0 :: w.state.files.filter fun g => decide (g.id ≠ f0.id))
            = heldUrls (f0 :: w.state.files.filter fun g => decide (g.id ≠ f0.id))
            from rfl, heldUrls_cons, if_neg hne] at hh
          exact hh
        have hheldnd : (heldUrls w.state.files).Nodup :=
          (List.nodup_append.mp (hled.nodup hnc)).1
        intro hx
        have hx2 : f0.downloadUrl ∈ (heldUrls w.state.files).erase f0.downloadUrl :=
          ((htr.erase f0.downloadUrl).mem_iff).mp hx
        rcases (hheldnd.mem_erase_iff).mp hx2 with ⟨hneq, -⟩
        exact hneq rfl
      · intro g hg
        have hg2 := List.mem_filter.mp hg
        simpa using hg2.2

/-- The scenario world after insert, schedule and a successful
completion is reachable. -/
theorem c7W3_reachable : ReachableW c7W3 := by
  have h1 : ReachableW c7W1 := ReachableW.step ReachableW.init
    (WStep.select initialWorld [(1, sampleHeicFile)] (by decide))
  have h2 : ReachableW c7W2 := ReachableW.step h1 (WStep.schedule c7W1)
  exact ReachableW.step h2 (WStep.completeSuccess c7W2 c7ItemProcessing OutputFormat.jpeg
    "blob:1" (by decide) (by decide) (by decide) (by decide))

/-- Witness for C7: on the concrete scenario world, removing the
completed item revokes its blob URL, and clearing empties the tracked
set. -/
theorem c7_handle_conservation_witness :
    "blob:1" ∈ (removeFileW c7W3 1).revokedUrls
  ∧ (clearAllW c7W3).objectUrls = [] := by
  have h := c7_handle_conservation c7W3 c7W3_reachable
  refine ⟨?_, h.2.1⟩
  have h4 := h.2.2.2 ⟨1, sampleHeicFile, Status.success, "", "blob:1", "a.jpg"⟩
    (by decide) (by decide)
  exact h4.1

end LocalDrop
